import Mathlib

/-!
# Verification of the SAET shoreline-extraction tools

Shallow embedding of the point-extraction, clustering and point-cleaning
functions of `saet_tools.py` (SAET V2.0), together with proofs and
refutations of the specified properties.

Python floats are modelled as real numbers (`ℝ`) where transcendental
functions (`atan2`, `exp`, `sqrt`) occur, and as rationals (`ℚ`) for the
purely field-arithmetic clustering code, so that witnesses evaluate by
`decide`.
-/

noncomputable section

namespace SAET

open Real

/-- Python builtin `int()` applied to a float: truncation toward zero. -/
def pyInt (r : ℝ) : ℤ := if 0 ≤ r then ⌊r⌋ else ⌈r⌉

/-- Python `math.atan2 y x`: the argument of the complex number `x + y*i`,
in the interval `(-π, π]`. -/
def atan2 (y x : ℝ) : ℝ := Complex.arg ⟨x, y⟩

/-- Python `math.degrees`: radians to degrees. -/
def degrees (r : ℝ) : ℝ := r * 180 / π

/-- A 2-D point (world or kernel coordinates). -/
abbrev Pt : Type := ℝ × ℝ

/-- Body of the loop of `removeByAngle` (saet_tools.py:5536-5543): the
angle at `b` between the ray towards the next point `c` and the ray
towards the previous point `a`, as an `atan2` difference in degrees,
normalized to `[0, 360)` by adding `360` when negative. -/
def turnAngle (a b c : Pt) : ℝ :=
  let ang := degrees (atan2 (c.2 - b.2) (c.1 - b.1) - atan2 (a.2 - b.2) (a.1 - b.1))
  if ang < 0 then ang + 360 else ang

/-- The `for i in range(0, len(puntos)-2)` loop of `removeByAngle`: an
interior point `puntos[i+1]` is appended exactly when
`turnAngle puntos[i] puntos[i+1] puntos[i+2] >= tol`. -/
def removeByAngleCore (tol : ℝ) : List Pt → List Pt
  | a :: b :: c :: rest =>
      (if tol ≤ turnAngle a b c then [b] else []) ++ removeByAngleCore tol (b :: c :: rest)
  | _ => []

/-- The function `removeByAngle(puntos, tol)` (saet_tools.py:5518-5549): the kept
interior points with `puntos[0]` inserted in front and `puntos[-1]`
appended at the end.  (The Python code raises on an empty list; the
callers always pass a nonempty list.) -/
def removeByAngle (puntos : List Pt) (tol : ℝ) : List Pt :=
  puntos.head?.toList ++ (removeByAngleCore tol puntos ++ puntos.getLast?.toList)

/-- The angle filter as the spec words it: the first point, then every
interior point `p[i+1]` (for `i` ranging over `0 .. len p - 3`) whose
turning angle is `≥ tol`, then the last point. -/
def removeByAngleSpec (p : List Pt) (tol : ℝ) : List Pt :=
  p.head?.toList ++
    (((List.range (p.length - 2)).filterMap fun i =>
        if tol ≤ turnAngle (p.getD i (0, 0)) (p.getD (i + 1) (0, 0)) (p.getD (i + 2) (0, 0))
        then some (p.getD (i + 1) (0, 0)) else none) ++
      p.getLast?.toList)

/-- Every consecutive triple of `p` has turning angle `≥ tol`. -/
def AllAngles (tol : ℝ) (p : List Pt) : Prop :=
  ∀ i, i + 2 < p.length →
    tol ≤ turnAngle (p.getD i (0, 0)) (p.getD (i + 1) (0, 0)) (p.getD (i + 2) (0, 0))

/-! ## Clustering: `getClusters` / `creaCluster` (saet_tools.py:5066-5165), over `ℚ` -/

/-- Ascending in-place sort, as `coord.sort()` does on a numpy array. -/
def npSort (l : List ℚ) : List ℚ := List.insertionSort (· ≤ ·) l

/-- First position of value `v` in a list, as
`np.where(orig_coord == v)[0][0]` finds it. -/
def npWhereFirst (v : ℚ) : List ℚ → ℕ
  | [] => 0
  | a :: l => if a = v then 0 else npWhereFirst v l + 1

/-- Sorted distinct values, as `np.unique` returns them. -/
def npUnique (l : List ℚ) : List ℚ := npSort l.dedup

/-- Weighted mean, as `np.average(vals, weights=ws)`. -/
def npAverage (vals ws : List ℚ) : ℚ := (List.zipWith (· * ·) ws vals).sum / ws.sum

/-- The run-building loop of `getClusters`: starting from `cluster = [0]`,
index `i+1` joins the current cluster when the sorted coordinates at `i`
and `i+1` differ by at most `tol` (`diffOk i`), otherwise the cluster is
closed and a new one starts at `i+1`; the last cluster is appended after
the loop. -/
def buildRunsGo (diffOk : ℕ → Bool) : List ℕ → ℕ → ℕ → List (List ℕ)
  | cluster, _, 0 => [cluster]
  | cluster, i, steps + 1 =>
      if diffOk i then buildRunsGo diffOk (cluster ++ [i + 1]) (i + 1) steps
      else cluster :: buildRunsGo diffOk [i + 1] (i + 1) steps

/-- Runs of consecutive sorted indices (`for i in range(0, len(coord)-1)`). -/
def buildRuns (n : ℕ) (diffOk : ℕ → Bool) : List (List ℕ) :=
  buildRunsGo diffOk [0] 0 (n - 1)

/-- The function `getClusters(coord, tol)` (saet_tools.py:5122-5165): keeps the
unsorted `orig_coord`, sorts `coord`, partitions the sorted indices into
runs of consecutive values differing by at most `tol`, and maps every
sorted index back to the first position in the unsorted array holding the
same value (`np.where(orig_coord == coord[iden])[0][0]`). -/
def getClusters (coord : List ℚ) (tol : ℚ) : List ℚ × List (List ℕ) :=
  let sorted := npSort coord
  let runs := buildRuns coord.length fun i =>
    decide (sorted.getD (i + 1) 0 - sorted.getD i 0 ≤ tol)
  (coord, runs.map fun run => run.map fun iden => npWhereFirst (sorted.getD iden 0) coord)

/-- The per-group body of the two axis loops of `creaCluster`
(saet_tools.py:5094-5117): groups of fewer than 2 points are skipped
entirely (`if len(cy) >= 2`); otherwise every run with at least
`min_cluster_size` members is averaged with the weights at the run's
mapped positions. -/
def axisPass (cy pey : List ℚ) (tol : ℚ) (mcs : ℕ) : List ℚ :=
  if 2 ≤ cy.length then
    (getClusters cy tol).2.filterMap fun cp =>
      let cluster := cp.map fun idx => (getClusters cy tol).1.getD idx 0
      if mcs ≤ cluster.length then
        some (npAverage cluster (cp.map fun idx => pey.getD idx 0))
      else none
  else []

/-- The function `creaCluster(d, p, ex, ey, cluster_distance, min_cluster_size)`
(saet_tools.py:5066-5119), with `ex`/`ey` inlined as `np.unique` of the two
coordinate columns exactly as `averagePoints` computes them: the X-axis pass
emits `(x, weighted mean of clustered y)` and the Y-axis pass emits
`(weighted mean of clustered x, y)`. -/
def creaCluster (d : List (ℚ × ℚ)) (p : List ℚ) (cluster_distance : ℚ)
    (min_cluster_size : ℕ) : List (ℚ × ℚ) :=
  let tol := cluster_distance
  let ex := npUnique (d.map Prod.fst)
  let ey := npUnique (d.map Prod.snd)
  (ex.flatMap fun x =>
    let id_x := (List.range d.length).filter fun i => decide ((d.getD i (0, 0)).1 = x)
    let cy := id_x.map fun i => (d.getD i (0, 0)).2
    let pey := id_x.map fun i => p.getD i 0
    (axisPass cy pey tol min_cluster_size).map fun m => (x, m)) ++
  (ey.flatMap fun y =>
    let id_y := (List.range d.length).filter fun i => decide ((d.getD i (0, 0)).2 = y)
    let cx := id_y.map fun i => (d.getD i (0, 0)).1
    let pex := id_y.map fun i => p.getD i 0
    (axisPass cx pex tol min_cluster_size).map fun m => (m, y))

/-! ## Group-size guard of `cleanPoints2` (saet_tools.py:5392-5424) -/

/-- The group-size guard of `cleanPoints2` (saet_tools.py:5404): the Python
expression is `len(points >= 4)` — `points >= 4` compares every coordinate
pair with 4 elementwise, and `len` of the resulting boolean array is the
number of points, so the guard is truthy exactly when the group is
nonempty. -/
def cleanPoints2Guard (points : List (ℚ × ℚ)) : Bool :=
  decide ((points.map fun pt => (decide (4 ≤ pt.1), decide (4 ≤ pt.2))).length ≠ 0)

/-- Modelled from the spec: the intended group-size guard.  The code comment
on the same line says "delaunay triangulation needs 4 or more points" and the
spec documents that a group with fewer than 4 points is skipped, i.e.
`len(points) >= 4`. -/
def cleanPoints2IntendedGuard (points : List (ℚ × ℚ)) : Bool :=
  decide (4 ≤ points.length)

/-! ## Contour selection: `mejor_curva_pendiente3` (saet_tools.py:4940-4975) -/

/-- A 2-D polynomial coefficient matrix, as produced by `polyfit2d`/`deriva`. -/
structure Poly2 where
  rows : ℕ
  cols : ℕ
  coef : ℕ → ℕ → ℝ

/-- Modelled from the spec: `polyval2d(x, y, m)` of the companion
`polynomial` module (imported by saet_tools.py but not part of this
repository) — the value at `(x, y)` of the 2-D polynomial with coefficient
matrix `m`, powers of `x` along columns, matching the column-shift
convention of `deriva`. -/
def Poly2.eval (m : Poly2) (x y : ℝ) : ℝ :=
  ∑ i ∈ Finset.range m.rows, ∑ j ∈ Finset.range m.cols, m.coef i j * x ^ j * y ^ i

/-- Mean of a list (`np.average` without weights).  On an empty list Python
produces NaN (which never updates the candidate); this model returns `0`,
so theorems about the scan assume nonempty branches. -/
def meanR (l : List ℝ) : ℝ := l.sum / l.length

/-- Per-vertex score inside `mejor_curva_pendiente3`: gradient magnitude of
the fitted surface times the weight-matrix value at the vertex's scaled
kernel coordinates (`p * peso`). -/
def vertexScore (dx dy : Poly2) (mp : ℤ → ℤ → ℝ) (resol : ℝ) (par : Pt) : ℝ :=
  let px := |Poly2.eval dx par.1 par.2|
  let py := |Poly2.eval dy par.1 par.2|
  Real.sqrt (px ^ 2 + py ^ 2) * mp (pyInt (par.1 / resol)) (pyInt (par.2 / resol))

/-- Mean score of one contour branch (`p_med = np.average(pendientes)`). -/
def branchScore (dx dy : Poly2) (mp : ℤ → ℤ → ℝ) (resol : ℝ) (curva : List Pt) : ℝ :=
  meanR (curva.map (vertexScore dx dy mp resol))

/-- The candidate scan of `mejor_curva_pendiente3`: starting from
`p_max = 0`, `candidate = -1`, each branch's mean score is compared with
`p_med >= p_max`; on success both `p_max` and `candidate` are replaced. -/
def mejorGo : ℝ → ℤ → ℕ → List ℝ → ℤ
  | _, cand, _, [] => cand
  | pmax, cand, i, s :: rest =>
      if pmax ≤ s then mejorGo s (i : ℤ) (i + 1) rest
      else mejorGo pmax cand (i + 1) rest

/-- The function `mejor_curva_pendiente3(v, dx, dy, mp, resol)`
(saet_tools.py:4940-4975). -/
def mejor_curva_pendiente3 (v : List (List Pt)) (dx dy : Poly2) (mp : ℤ → ℤ → ℝ)
    (resol : ℝ) : ℤ :=
  mejorGo 0 (-1) 0 (v.map (branchScore dx dy mp resol))

/-! ## Coordinate conversion: `escribeCoords` (saet_tools.py:4978-5011) -/

/-- The function `escribeCoords` writes, for every kernel-local vertex
`(x[i], y[i])`, the line `rx, ry, peso` with
`rx = xmin + (col - int(kernel/2.0))*resol_orig + x[i]`,
`ry = ymax - (fil - int(kernel/2.0))*resol_orig - y[i]` and
`peso = wm[int(x[i]/resol), int(y[i]/resol)]`.  The callers always pass
two lists of equal length (the coordinates are appended in pairs). -/
def escribeCoords (x y : List ℝ) (xmin ymax resol_orig resol : ℝ) (wm : ℤ → ℤ → ℝ)
    (fil col : ℤ) (kernel : ℕ) : List (ℝ × ℝ × ℝ) :=
  (x.zip y).map fun par =>
    (xmin + ((col : ℝ) - ((kernel / 2 : ℕ) : ℝ)) * resol_orig + par.1,
     ymax - ((fil : ℝ) - ((kernel / 2 : ℕ) : ℝ)) * resol_orig - par.2,
     wm (pyInt (par.1 / resol)) (pyInt (par.2 / resol)))

/-! ## Weight matrix: `computeWeights` / `normcdf` / `erfcc`
(saet_tools.py:4740-4816) -/

/-- The Numerical-Recipes rational-exponential approximation of the
complementary error function (`erfcc`, saet_tools.py:4798-4809). -/
def erfcc (x : ℝ) : ℝ :=
  let z := |x|
  let t := 1 / (1 + 0.5 * z)
  let r := t * Real.exp (-z * z - 1.26551223 + t * (1.00002368 + t * (0.37409196 +
    t * (0.09678418 + t * (-0.18628806 + t * (0.27886807 + t * (-1.13520398 +
    t * (1.48851587 + t * (-0.82215223 + t * 0.17087277)))))))))
  if 0 ≤ x then r else 2 - r

/-- The function `normcdf(x, mu, sigma)` (saet_tools.py:4773-4795), with its
clip of values above `1`. -/
def normcdf (x mu sigma : ℝ) : ℝ :=
  let t := x - mu
  let y := 0.5 * erfcc (-t / (sigma * Real.sqrt 2))
  if 1 < y then 1 else y

/-- The entry at `(i, j)` (0-based) of the `kernel*ppp` square weight matrix
of `computeWeights(kernel, ppp)` (saet_tools.py:4740-4770): `cont_i = i+1`,
`d` the distance from `(cont_i, cont_j)` to the matrix center
`((f+1)/2, (c+1)/2)`, and the value `normcdf(-d, 0, 3) * 2`. -/
def computeWeights (kernel ppp : ℕ) : ℕ → ℕ → ℝ := fun i j =>
  let f : ℝ := (kernel * ppp : ℕ)
  let c : ℝ := (kernel * ppp : ℕ)
  let d := Real.sqrt ((((i : ℝ) + 1) - (f + 1) / 2) ^ 2 +
    (((j : ℝ) + 1) - (c + 1) / 2) ^ 2)
  normcdf (-d) 0 3 * 2

/-- The bracketed Horner part of the exponent of `erfcc`:
`H(t) = -1.26551223 + t*(1.00002368 + t*(...))`, so that for `x ≥ 0`
`erfcc x = t * exp(-x² + H t)` with `t = 1/(1 + x/2)`. -/
def erfH (s : ℝ) : ℝ :=
  -1.26551223 + s * (1.00002368 + s * (0.37409196 + s * (0.09678418 + s * (-0.18628806 +
    s * (0.27886807 + s * (-1.13520398 + s * (1.48851587 + s * (-0.82215223 +
    s * 0.17087277))))))))

/-- Derivative of `erfH`. -/
def erfHd (s : ℝ) : ℝ :=
  1.00002368 + 2 * 0.37409196 * s + 3 * 0.09678418 * s ^ 2 + 4 * (-0.18628806) * s ^ 3 +
    5 * 0.27886807 * s ^ 4 + 6 * (-1.13520398) * s ^ 5 + 7 * 1.48851587 * s ^ 6 +
    8 * (-0.82215223) * s ^ 7 + 9 * 0.17087277 * s ^ 8

/-- Logarithm of `erfcc` reparametrized by `t = 1/(1 + x/2) = 2/(2+x)`:
`erfcc x = exp (erfG (2/(2+x)))` for `x ≥ 0`; `erfcc` is decreasing on
`[0, ∞)` iff `erfG` is increasing on `(0, 1]`. -/
def erfG (s : ℝ) : ℝ := Real.log s - (2 / s - 2) ^ 2 + erfH s

/-- Numerator of `erfG'(s) = erfP s / s³`. -/
def erfP (s : ℝ) : ℝ := 8 - 8 * s + s ^ 2 + s ^ 3 * erfHd s

/-- Euclidean distance of the 0-based cell `(i, j)` from the center of the
`n × n` weight matrix, in the 1-based `cont_i`/`cont_j` coordinates of
`computeWeights`. -/
def cellDist (n i j : ℕ) : ℝ :=
  Real.sqrt ((((i : ℝ) + 1) - ((n : ℝ) + 1) / 2) ^ 2 +
    (((j : ℝ) + 1) - ((n : ℝ) + 1) / 2) ^ 2)

/-! ## Scene scan: `extractPoints` (saet_tools.py:4604-4737) -/

/-- Pixel scan order of `extractPoints`: rows `f` then columns `c`, both
restricted to the 10-pixel interior margin (`offset = 10`,
`range(f1, f2) × range(c1, c2)`). -/
def scanPixels (rows columns : ℕ) : List (ℕ × ℕ) :=
  (List.range' 10 (rows - 10 - 10)).flatMap fun f =>
    (List.range' 10 (columns - 10 - 10)).map fun c => (f, c)

/-- One iteration of the pixel loop of `extractPoints`
(saet_tools.py:4679-4718).  The abstract `pipeline` argument stands for the
numeric steps applied to the kernel sub-matrix around a rough-line pixel —
`rescale`, `createData`, `polyfit2d`, `deriva`, `verticeslaplaciano` —
yielding the contour list `v` and the two derivative coefficient matrices
`dx`, `dy`, or `none` when `verticeslaplaciano` returned `None`.  A pixel
of value `255` always sets the `white_pixel` flag, whether or not any
output is produced for it. -/
def extractStep (pl_data : ℕ → ℕ → ℕ)
    (pipeline : ℕ → ℕ → Option (List (List Pt) × Poly2 × Poly2))
    (wm : ℤ → ℤ → ℝ) (minX maxY resol_orig resol : ℝ) (kernel : ℕ)
    (st : Bool × List (ℝ × ℝ × ℝ)) (fc : ℕ × ℕ) : Bool × List (ℝ × ℝ × ℝ) :=
  if pl_data fc.1 fc.2 = 255 then
    match pipeline fc.1 fc.2 with
    | none => (true, st.2)
    | some (v, dxy) =>
        if v ≠ [] then
          let indice := mejor_curva_pendiente3 v dxy.1 dxy.2 wm resol
          if indice ≠ -1 then
            let linea := v.getD indice.toNat []
            (true, st.2 ++ escribeCoords (linea.map Prod.fst) (linea.map Prod.snd)
              minX maxY resol_orig resol wm (fc.1 : ℤ) (fc.2 : ℤ) kernel)
          else (true, st.2)
        else (true, st.2)
  else st

/-- The scene scan of `extractPoints` (saet_tools.py:4604-4737), returning
the `white_pixel` flag (the function's boolean result) together with the
lines written to the coordinates file.  The weight matrix is
`computeWeights kernel ppp`, indexed as numpy does (negative indices wrap
modulo the side length). -/
def extractPoints (rows columns : ℕ) (pl_data : ℕ → ℕ → ℕ)
    (pipeline : ℕ → ℕ → Option (List (List Pt) × Poly2 × Poly2))
    (minX maxY resol_orig : ℝ) (kernel ppp : ℕ) : Bool × List (ℝ × ℝ × ℝ) :=
  let resol := resol_orig / ppp
  let n : ℤ := (kernel * ppp : ℕ)
  let wm : ℤ → ℤ → ℝ := fun i j => computeWeights kernel ppp (i % n).toNat (j % n).toNat
  (scanPixels rows columns).foldl
    (extractStep pl_data pipeline wm minX maxY resol_orig resol kernel) (false, [])

lemma flatMap_eq_nil_of {α β : Type} (l : List α) (f : α → List β)
    (h : ∀ a ∈ l, f a = []) : l.flatMap f = [] := by
  induction l with
  | nil => rfl
  | cons a t ih =>
    simp only [List.flatMap_cons, h a (by simp), List.nil_append]
    exact ih fun b hb => h b (by simp [hb])

lemma filter_range_length_le_one (n : ℕ) (pred : ℕ → Bool)
    (h : ∀ i j, i < n → j < n → pred i = true → pred j = true → i = j) :
    ((List.range n).filter pred).length ≤ 1 := by
  by_contra hlen
  push_neg at hlen
  have hnd : ((List.range n).filter pred).Nodup :=
    List.Nodup.filter pred (List.nodup_range n)
  have h1 : 1 < ((List.range n).filter pred).length := hlen
  have h0 : 0 < ((List.range n).filter pred).length := by omega
  have hm0 : ((List.range n).filter pred)[0] ∈ (List.range n).filter pred :=
    List.getElem_mem h0
  have hm1 : ((List.range n).filter pred)[1] ∈ (List.range n).filter pred :=
    List.getElem_mem h1
  have hp0 := List.mem_filter.mp hm0
  have hp1 := List.mem_filter.mp hm1
  have heq : ((List.range n).filter pred)[0] = ((List.range n).filter pred)[1] :=
    h _ _ (List.mem_range.mp hp0.1) (List.mem_range.mp hp1.1) hp0.2 hp1.2
  have h01 : (0 : ℕ) = 1 := hnd.getElem_inj_iff.mp heq
  exact absurd h01 (by omega)

lemma removeByAngleCore_eq_filterMap (tol : ℝ) (p : List Pt) :
    removeByAngleCore tol p =
      (List.range (p.length - 2)).filterMap fun i =>
        if tol ≤ turnAngle (p.getD i (0, 0)) (p.getD (i + 1) (0, 0)) (p.getD (i + 2) (0, 0))
        then some (p.getD (i + 1) (0, 0)) else none := by
  induction p with
  | nil => simp [removeByAngleCore]
  | cons a q ih =>
    match q with
    | [] => simp [removeByAngleCore]
    | [b] => simp [removeByAngleCore]
    | b :: c :: rest =>
      rw [removeByAngleCore]
      have hlen : (a :: b :: c :: rest).length - 2 = (rest.length + 1) := by
        simp [List.length_cons]
      rw [hlen]
      have hlen' : (b :: c :: rest).length - 2 = rest.length := by
        simp [List.length_cons]
      rw [ih, hlen', List.range_succ_eq_map, List.filterMap_cons, List.filterMap_map]
      simp only [List.getD_cons_zero, List.getD_cons_succ, Function.comp_def,
        Nat.succ_eq_add_one]
      by_cases h : tol ≤ turnAngle a b c
      · simp [h]
      · simp [h]

lemma removeByAngleCore_of_allAngles (tol : ℝ) (p : List Pt) (h : AllAngles tol p) :
    removeByAngleCore tol p = p.tail.dropLast := by
  induction p with
  | nil => simp [removeByAngleCore]
  | cons a q ih =>
    match q with
    | [] => simp [removeByAngleCore]
    | [b] => simp [removeByAngleCore]
    | b :: c :: rest =>
      have h0 : tol ≤ turnAngle a b c := by
        have := h 0 (by simp [List.length_cons])
        simpa using this
      have htail : AllAngles tol (b :: c :: rest) := by
        intro i hi
        have := h (i + 1) (by simpa [List.length_cons, Nat.add_lt_add_iff_right] using hi)
        simpa [List.getD_cons_succ] using this
      rw [removeByAngleCore, if_pos h0, ih htail]
      simp [List.dropLast]

lemma head_interior_last (p : List Pt) (h : 2 ≤ p.length) :
    p.head?.toList ++ (p.tail.dropLast ++ p.getLast?.toList) = p := by
  match p with
  | a :: b :: rest =>
    have hne : (b :: rest : List Pt) ≠ [] := by simp
    have hlast : (a :: b :: rest).getLast? = some ((b :: rest).getLast hne) := by
      rw [List.getLast?_eq_getLast _ (by simp)]
      simp [List.getLast_cons hne]
    simp only [List.head?_cons, Option.toList_some, List.tail_cons, hlast]
    have := List.dropLast_append_getLast hne
    simp [this]

/-- If every consecutive triple of `p` passes the angle test, `removeByAngle`
returns `p` unchanged (for paths of at least two points). -/
lemma removeByAngle_of_allAngles (tol : ℝ) (p : List Pt) (hlen : 2 ≤ p.length)
    (h : AllAngles tol p) : removeByAngle p tol = p := by
  rw [removeByAngle, removeByAngleCore_of_allAngles tol p h, head_interior_last p hlen]

/-- Normalization of the `atan2` difference: if the two `atan2` values differ
by `θ ∈ [0, 2π)` modulo `2π`, the normalized turn angle is `degrees θ`. -/
lemma turnAngle_eq_of_angle (a b c : Pt) (θ : ℝ) (hθ0 : 0 ≤ θ) (hθ2 : θ < 2 * π)
    (h : ((atan2 (c.2 - b.2) (c.1 - b.1) - atan2 (a.2 - b.2) (a.1 - b.1) : ℝ) : Real.Angle)
        = (θ : Real.Angle)) :
    turnAngle a b c = degrees θ := by
  have hπ : (0:ℝ) < π := Real.pi_pos
  set A := atan2 (c.2 - b.2) (c.1 - b.1) with hA
  set B := atan2 (a.2 - b.2) (a.1 - b.1) with hB
  have hAmem := Complex.arg_mem_Ioc ⟨c.1 - b.1, c.2 - b.2⟩
  have hBmem := Complex.arg_mem_Ioc ⟨a.1 - b.1, a.2 - b.2⟩
  have hA1 : -π < A := hAmem.1
  have hA2 : A ≤ π := hAmem.2
  have hB1 : -π < B := hBmem.1
  have hB2 : B ≤ π := hBmem.2
  obtain ⟨k, hk⟩ := Real.Angle.angle_eq_iff_two_pi_dvd_sub.mp h
  -- the difference lies in (-2π, 2π), so k = 0 or k = -1
  have hdlo : -(2 * π) < A - B := by linarith
  have hdhi : A - B < 2 * π := by linarith
  have hk0 : k = 0 ∨ k = -1 := by
    by_contra hcon
    push_neg at hcon
    rcases lt_or_le (k : ℝ) 0 with hneg | hpos
    · have : (k : ℝ) ≤ -2 := by
        have h1 : k ≤ -1 := by exact_mod_cast Int.lt_add_one_iff.mp (by exact_mod_cast hneg)
        have h2 : k ≠ -1 := hcon.2
        have : k ≤ -2 := by omega
        exact_mod_cast this
      nlinarith
    · have : (1 : ℝ) ≤ (k : ℝ) := by
        have h1 : (0:ℤ) ≤ k := by exact_mod_cast hpos
        have h2 : k ≠ 0 := hcon.1
        have : (1:ℤ) ≤ k := by omega
        exact_mod_cast this
      nlinarith
  have hπne : π ≠ 0 := ne_of_gt hπ
  rcases hk0 with rfl | rfl
  · have hd : A - B = θ := by push_cast at hk; linarith
    have h0 : 0 ≤ degrees θ := by
      unfold degrees
      exact div_nonneg (by nlinarith) hπ.le
    rw [turnAngle]
    simp only [← hA, ← hB, hd]
    rw [if_neg (not_lt.mpr h0)]
  · have hd : A - B = θ - 2 * π := by push_cast at hk; linarith
    have hneg : degrees (θ - 2 * π) < 0 := by
      unfold degrees
      exact div_neg_of_neg_of_pos (by nlinarith) hπ
    rw [turnAngle]
    simp only [← hA, ← hB, hd]
    rw [if_pos hneg]
    unfold degrees
    field_simp
    ring

lemma complex_dir_ne_zero {a b : Pt} (hne : b ≠ a) :
    (⟨b.1 - a.1, b.2 - a.2⟩ : ℂ) ≠ 0 := by
  intro h
  apply hne
  have h1 : b.1 - a.1 = 0 := by
    have := congrArg Complex.re h
    simpa using this
  have h2 : b.2 - a.2 = 0 := by
    have := congrArg Complex.im h
    simpa using this
  exact Prod.ext_iff.mpr ⟨by linarith, by linarith⟩

/-- A point continuing straight on (the segment `b → c` a positive multiple
of `a → b`) has normalized turning angle exactly `180`. -/
lemma turnAngle_collinear (a b c : Pt) (t : ℝ) (ht : 0 < t) (hne : b ≠ a)
    (hc1 : c.1 - b.1 = t * (b.1 - a.1)) (hc2 : c.2 - b.2 = t * (b.2 - a.2)) :
    turnAngle a b c = 180 := by
  have hπ : (0:ℝ) < π := Real.pi_pos
  set ec : ℂ := ⟨b.1 - a.1, b.2 - a.2⟩ with hec
  have hecne : ec ≠ 0 := complex_dir_ne_zero hne
  have hCeq : (⟨c.1 - b.1, c.2 - b.2⟩ : ℂ) = (t : ℂ) * ec := by
    apply Complex.ext <;>
      simp [hec, Complex.mul_re, Complex.mul_im, hc1, hc2]
  have hBeq : (⟨a.1 - b.1, a.2 - b.2⟩ : ℂ) = -ec := by
    apply Complex.ext <;> simp [hec] <;> ring
  have hang : ((atan2 (c.2 - b.2) (c.1 - b.1) - atan2 (a.2 - b.2) (a.1 - b.1) : ℝ) :
      Real.Angle) = ((π : ℝ) : Real.Angle) := by
    simp only [atan2]
    rw [Real.Angle.coe_sub, hCeq, hBeq, Complex.arg_real_mul ec ht,
      Complex.arg_neg_coe_angle hecne]
    have h1 : ∀ x : Real.Angle, x - (x + (π : ℝ)) = -((π : ℝ) : Real.Angle) := by
      intro x; abel
    rw [h1, Real.Angle.neg_coe_pi]
  have := turnAngle_eq_of_angle a b c π hπ.le (by linarith) hang
  rw [this]
  unfold degrees
  field_simp

/-- A point turning by exactly `90°` in the direction whose `atan2`
difference normalizes to `90` (segment `b → c` a positive multiple of the
clockwise rotation of `a → b`). -/
lemma turnAngle_rot_cw (a b c : Pt) (t : ℝ) (ht : 0 < t) (hne : b ≠ a)
    (hc1 : c.1 - b.1 = t * (b.2 - a.2)) (hc2 : c.2 - b.2 = -(t * (b.1 - a.1))) :
    turnAngle a b c = 90 := by
  have hπ : (0:ℝ) < π := Real.pi_pos
  set ec : ℂ := ⟨b.1 - a.1, b.2 - a.2⟩ with hec
  have hecne : ec ≠ 0 := complex_dir_ne_zero hne
  have hCeq : (⟨c.1 - b.1, c.2 - b.2⟩ : ℂ) = (t : ℂ) * (-Complex.I * ec) := by
    apply Complex.ext <;>
      simp [hec, Complex.mul_re, Complex.mul_im, hc1, hc2] <;> ring
  have hBeq : (⟨a.1 - b.1, a.2 - b.2⟩ : ℂ) = -ec := by
    apply Complex.ext <;> simp [hec] <;> ring
  have hIne : -Complex.I * ec ≠ 0 := by
    apply mul_ne_zero _ hecne
    simp [Complex.ext_iff]
  have hang : ((atan2 (c.2 - b.2) (c.1 - b.1) - atan2 (a.2 - b.2) (a.1 - b.1) : ℝ) :
      Real.Angle) = ((π / 2 : ℝ) : Real.Angle) := by
    simp only [atan2]
    rw [Real.Angle.coe_sub, hCeq, hBeq, Complex.arg_real_mul _ ht,
      Complex.arg_neg_coe_angle hecne,
      Complex.arg_mul_coe_angle (by simp [Complex.ext_iff] : -Complex.I ≠ (0:ℂ)) hecne,
      Complex.arg_neg_I]
    have h1 : ∀ x : Real.Angle, ((-(π / 2) : ℝ) + x) - (x + (π : ℝ)) =
        ((-(π / 2) : ℝ) : Real.Angle) - ((π : ℝ) : Real.Angle) := by
      intro x; abel
    rw [h1, ← Real.Angle.coe_sub]
    exact Real.Angle.angle_eq_iff_two_pi_dvd_sub.mpr ⟨-1, by push_cast; ring⟩
  have := turnAngle_eq_of_angle a b c (π / 2) (by linarith) (by linarith) hang
  rw [this]
  unfold degrees
  field_simp
  ring

/-- A point turning by exactly `90°` in the opposite direction (segment
`b → c` a positive multiple of the counter-clockwise rotation of `a → b`)
has normalized turning angle `270`. -/
lemma turnAngle_rot_ccw (a b c : Pt) (t : ℝ) (ht : 0 < t) (hne : b ≠ a)
    (hc1 : c.1 - b.1 = -(t * (b.2 - a.2))) (hc2 : c.2 - b.2 = t * (b.1 - a.1)) :
    turnAngle a b c = 270 := by
  have hπ : (0:ℝ) < π := Real.pi_pos
  set ec : ℂ := ⟨b.1 - a.1, b.2 - a.2⟩ with hec
  have hecne : ec ≠ 0 := complex_dir_ne_zero hne
  have hCeq : (⟨c.1 - b.1, c.2 - b.2⟩ : ℂ) = (t : ℂ) * (Complex.I * ec) := by
    apply Complex.ext <;>
      simp [hec, Complex.mul_re, Complex.mul_im, hc1, hc2] <;> ring
  have hBeq : (⟨a.1 - b.1, a.2 - b.2⟩ : ℂ) = -ec := by
    apply Complex.ext <;> simp [hec] <;> ring
  have hang : ((atan2 (c.2 - b.2) (c.1 - b.1) - atan2 (a.2 - b.2) (a.1 - b.1) : ℝ) :
      Real.Angle) = ((3 * π / 2 : ℝ) : Real.Angle) := by
    simp only [atan2]
    rw [Real.Angle.coe_sub, hCeq, hBeq, Complex.arg_real_mul _ ht,
      Complex.arg_neg_coe_angle hecne,
      Complex.arg_mul_coe_angle Complex.I_ne_zero hecne, Complex.arg_I]
    have h1 : ∀ x : Real.Angle, ((π / 2 : ℝ) + x) - (x + (π : ℝ)) =
        ((π / 2 : ℝ) : Real.Angle) - ((π : ℝ) : Real.Angle) := by
      intro x; abel
    rw [h1, ← Real.Angle.coe_sub]
    exact Real.Angle.angle_eq_iff_two_pi_dvd_sub.mpr ⟨-1, by push_cast; ring⟩
  have := turnAngle_eq_of_angle a b c (3 * π / 2) (by positivity) (by linarith) hang
  rw [this]
  unfold degrees
  field_simp
  ring

lemma getClusters_fst (coord : List ℚ) (tol : ℚ) : (getClusters coord tol).1 = coord := rfl

lemma axisPass_nil (cy pey : List ℚ) (tol : ℚ) (mcs : ℕ) (h : cy.length ≤ 1) :
    axisPass cy pey tol mcs = [] := by
  rw [axisPass, if_neg (by omega)]

lemma npAverage_single (v w : ℚ) (hw : w ≠ 0) : npAverage [v] [w] = v := by
  simp [npAverage, List.zipWith]
  field_simp

/-- C2: the spec states that a tagged point group with fewer than 4 points
cannot be triangulated and is skipped, emitting no output.  The code's
guard at saet_tools.py:5404 is `if len(points >= 4):`, where `points >= 4`
is an elementwise comparison array, so `len` of it equals the number of
points and the guard is truthy for ANY nonempty group: a 3-point group
such as `[(0,0), (1,0), (0,1)]` passes the guard (Delaunay succeeds on 3
non-collinear points and output is emitted), contradicting the spec and
the code's own comment on the same line, "delaunay triangulation needs 4
or more points". -/
theorem cleanPoints2_group_guard_bug :
    cleanPoints2Guard [(0, 0), (1, 0), (0, 1)] = true ∧
    cleanPoints2IntendedGuard [(0, 0), (1, 0), (0, 1)] = false := by
  constructor <;> rfl

/-- C6 counterexample: the claim states that a run of size 1 yields an
averaged point (the point itself) when `min_cluster_size ≤ 1`, "including
the case of a point whose axis value is shared by no other point"; but the
code skips every axis group with fewer than 2 points (`if len(cy) >= 2`,
saet_tools.py:5098), so the single point `(0, 0)` with weight `1`,
`cluster_distance = 1` and `min_cluster_size = 1` produces no output at
all. -/
theorem creaCluster_lone_point_dropped :
    creaCluster [((0 : ℚ), 0)] [1] 1 1 = [] := by
  norm_num [creaCluster, axisPass, getClusters, npUnique, npSort,
    List.insertionSort, List.orderedInsert, List.dedup, List.range,
    List.range.loop]

/-- C6 (amended): for every distinct axis value, the points sharing that
exact value are sorted and partitioned into runs where consecutive sorted
coordinates differ by at most `cluster_distance`, each run of at least
`min_cluster_size` members becoming one weighted average — so a run of
size 1 is dropped when `min_cluster_size > 1` and yields the point itself
when `min_cluster_size ≤ 1` (its weighted average over one point) —
EXCEPT that an axis group with fewer than 2 points is skipped wholesale:
a point whose axis value is shared by no other point is always dropped,
whatever `min_cluster_size` is. -/
theorem axisPass_run_semantics :
    (∀ (cy pey : List ℚ) (tol : ℚ) (mcs : ℕ), cy.length ≤ 1 →
        axisPass cy pey tol mcs = []) ∧
    (∀ (cy pey : List ℚ) (tol : ℚ) (mcs : ℕ), 2 ≤ cy.length →
        axisPass cy pey tol mcs =
          (getClusters cy tol).2.filterMap fun cp =>
            if mcs ≤ cp.length then
              some (npAverage (cp.map fun idx => cy.getD idx 0)
                (cp.map fun idx => pey.getD idx 0))
            else none) ∧
    (∀ (v w : ℚ), w ≠ 0 → npAverage [v] [w] = v) ∧
    (∀ (mcs : ℕ) (cp : List ℕ) (vals ws : List ℚ), cp.length = 1 → 2 ≤ mcs →
        (if mcs ≤ cp.length then some (npAverage vals ws) else none) = none) := by
  refine ⟨fun cy pey tol mcs h => axisPass_nil cy pey tol mcs h, ?_, ?_, ?_⟩
  · intro cy pey tol mcs h2
    rw [axisPass, if_pos h2]
    congr 1
    funext cp
    simp [getClusters_fst, List.length_map]
  · exact fun v w hw => npAverage_single v w hw
  · intro mcs cp vals ws hcp hmcs
    rw [if_neg (by omega)]

/-- C7 (amended): re-clustering an already-clustered point set is NOT a
no-op: a point set whose x values are pairwise distinct and whose y values
are pairwise distinct (as is the case for a typical already-averaged
output) is mapped by `creaCluster` to the EMPTY list, whatever
`cluster_distance` and `min_cluster_size` are — every axis group has a
single member and is skipped by the `len(cy) >= 2` guard, so the

second application loses every such point instead of averaging it to
itself. -/
theorem creaCluster_distinct_axes_empty (d : List (ℚ × ℚ)) (p : List ℚ)
    (cd : ℚ) (mcs : ℕ)
    (hx : ∀ i j, i < d.length → j < d.length →
      (d.getD i (0, 0)).1 = (d.getD j (0, 0)).1 → i = j)
    (hy : ∀ i j, i < d.length → j < d.length →
      (d.getD i (0, 0)).2 = (d.getD j (0, 0)).2 → i = j) :
    creaCluster d p cd mcs = [] := by
  simp only [creaCluster]
  rw [List.append_eq_nil]
  constructor
  · apply flatMap_eq_nil_of
    intro x hxmem
    have hlen : ((List.range d.length).filter
        fun i => decide ((d.getD i (0, 0)).1 = x)).length ≤ 1 := by
      apply filter_range_length_le_one
      intro i j hi hj hpi hpj
      exact hx i j hi hj (by rw [of_decide_eq_true hpi, of_decide_eq_true hpj])
    rw [axisPass_nil _ _ _ _ (by simpa using hlen)]
    rfl
  · apply flatMap_eq_nil_of
    intro y hymem
    have hlen : ((List.range d.length).filter
        fun i => decide ((d.getD i (0, 0)).2 = y)).length ≤ 1 := by
      apply filter_range_length_le_one
      intro i j hi hj hpi hpj
      exact hy i j hi hj (by rw [of_decide_eq_true hpi, of_decide_eq_true hpj])
    rw [axisPass_nil _ _ _ _ (by simpa using hlen)]
    rfl

/-- Witness for the amended C7 theorem at the one-point set `[(5, 1/2)]`
(the clustered output of the counterexample below): its axis values are
trivially pairwise distinct and the re-clustering output is empty. -/
theorem creaCluster_distinct_axes_empty_witness :
    (∀ i j, i < ([((5 : ℚ), 1/2)] : List (ℚ × ℚ)).length →
      j < ([((5 : ℚ), 1/2)] : List (ℚ × ℚ)).length → i = j) ∧
    creaCluster [((5 : ℚ), 1/2)] [1] 1 2 = [] :=
  ⟨fun i j hi hj => by simp at hi hj; omega,
   creaCluster_distinct_axes_empty [((5 : ℚ), 1/2)] [1] 1 2
     (fun i j hi hj _ => by simp at hi hj; omega)
     (fun i j hi hj _ => by simp at hi hj; omega)⟩

/-- C7 counterexample: clustering `[(5,0), (5,1)]` (weights 1, distance 1,
minimum size 2) yields `[(5, 1/2)]`; re-clustering that output with the
same `cluster_distance` and `min_cluster_size` yields `[]`, not the same
point set — no floating-point tolerance can identify an empty set with a
nonempty one, so clustering is not idempotent. -/
theorem creaCluster_not_idempotent :
    creaCluster [((5 : ℚ), 0), (5, 1)] [1, 1] 1 2 = [(5, 1/2)] ∧
    creaCluster (creaCluster [((5 : ℚ), 0), (5, 1)] [1, 1] 1 2) [1] 1 2 = [] ∧
    ([((5 : ℚ), 1/2)] : List (ℚ × ℚ)) ≠ [] := by
  have h1 : creaCluster [((5 : ℚ), 0), (5, 1)] [1, 1] 1 2 = [(5, 1/2)] := by
    norm_num [creaCluster, axisPass, getClusters, buildRuns, buildRunsGo, npSort,
      List.insertionSort, List.orderedInsert, npWhereFirst, npUnique, npAverage,
      List.dedup, List.range, List.range.loop, List.filterMap_cons,
      Function.comp_def, List.getD_cons_zero, List.getD_cons_succ, List.getD]
  refine ⟨h1, ?_, by simp⟩
  rw [h1]
  norm_num [creaCluster, axisPass, getClusters, npUnique, npSort,
    List.insertionSort, List.orderedInsert, List.dedup, List.range,
    List.range.loop]

/-- Witness for the amended C6 theorem: the group of the lone point `0`
(length 1) produces nothing, and the weighted average over a single point
with weight `1` is the point itself. -/
theorem axisPass_run_semantics_witness :
    ([(0 : ℚ)] : List ℚ).length ≤ 1 ∧ axisPass [(0 : ℚ)] [1] 1 1 = [] ∧
    (1 : ℚ) ≠ 0 ∧ npAverage [(0 : ℚ)] [1] = 0 :=
  ⟨by simp, axisPass_run_semantics.1 [0] [1] 1 1 (by simp), one_ne_zero,
   axisPass_run_semantics.2.2.1 0 1 one_ne_zero⟩

lemma getD_map_of_lt {α β : Type} (f : α → β) (l : List α) (k : ℕ)
    (hk : k < l.length) (d : α) (d' : β) : (l.map f).getD k d' = f (l.getD k d) := by
  rw [List.getD_eq_getElem _ _ (by simpa using hk), List.getD_eq_getElem _ _ hk,
    List.getElem_map]

/-- Invariant of the candidate scan: starting from `p_max = pmax ≥ 0` and
candidate `cand` at position `i`, either nothing beats `pmax` and `cand`
survives, or the scan returns the absolute position of the LAST score that
is maximal among the remaining scores (the `>=` comparison replaces the
candidate on ties). -/
lemma mejorGo_spec (l : List ℝ) : ∀ (pmax : ℝ) (cand : ℤ) (i : ℕ), 0 ≤ pmax →
    (mejorGo pmax cand i l = cand ∧ ∀ j, j < l.length → l.getD j 0 < pmax) ∨
    (∃ j, j < l.length ∧ mejorGo pmax cand i l = ((i + j : ℕ) : ℤ) ∧
      pmax ≤ l.getD j 0 ∧
      (∀ k, k < l.length → l.getD k 0 ≤ l.getD j 0) ∧
      (∀ k, k < l.length → j < k → l.getD k 0 < l.getD j 0)) := by
  induction l with
  | nil =>
    intro pmax cand i _
    left
    exact ⟨rfl, fun j hj => absurd hj (by simp)⟩
  | cons s rest ih =>
    intro pmax cand i hpmax
    by_cases hcmp : pmax ≤ s
    · rw [mejorGo, if_pos hcmp]
      rcases ih s (i : ℤ) (i + 1) (le_trans hpmax hcmp) with
        ⟨heq, hall⟩ | ⟨j, hj, heq, hle, hmax, hstrict⟩
      · right
        refine ⟨0, by simp, by simpa using heq, by simpa using hcmp, ?_, ?_⟩
        · intro k hk
          match k with
          | 0 => simp
          | k + 1 =>
            have := hall k (by simpa using hk)
            simp only [List.getD_cons_succ, List.getD_cons_zero]
            linarith
        · intro k hk h0k
          match k with
          | 0 => omega
          | k + 1 =>
            have := hall k (by simpa using hk)
            simp only [List.getD_cons_succ, List.getD_cons_zero]
            linarith
      · right
        refine ⟨j + 1, by simpa using hj, ?_, ?_, ?_, ?_⟩
        · rw [heq]; congr 1; omega
        · simp only [List.getD_cons_succ]
          exact le_trans hcmp hle
        · intro k hk
          match k with
          | 0 =>
            simp only [List.getD_cons_succ, List.getD_cons_zero]
            exact hle
          | k + 1 =>
            simp only [List.getD_cons_succ]
            exact hmax k (by simpa using hk)
        · intro k hk hjk
          match k with
          | 0 => omega
          | k + 1 =>
            simp only [List.getD_cons_succ]
            exact hstrict k (by simpa using hk) (by omega)
    · rw [mejorGo, if_neg hcmp]
      push_neg at hcmp
      rcases ih pmax cand (i + 1) hpmax with
        ⟨heq, hall⟩ | ⟨j, hj, heq, hle, hmax, hstrict⟩
      · left
        refine ⟨heq, ?_⟩
        intro k hk
        match k with
        | 0 => simpa using hcmp
        | k + 1 =>
          simp only [List.getD_cons_succ]
          exact hall k (by simpa using hk)
      · right
        refine ⟨j + 1, by simpa using hj, ?_, ?_, ?_, ?_⟩
        · rw [heq]; congr 1; omega
        · simp only [List.getD_cons_succ]
          exact hle
        · intro k hk
          match k with
          | 0 =>
            simp only [List.getD_cons_succ, List.getD_cons_zero]
            exact le_of_lt (lt_of_lt_of_le hcmp hle)
          | k + 1 =>
            simp only [List.getD_cons_succ]
            exact hmax k (by simpa using hk)
        · intro k hk hjk
          match k with
          | 0 => omega
          | k + 1 =>
            simp only [List.getD_cons_succ]
            exact hstrict k (by simpa using hk) (by omega)

lemma vertexScore_nonneg (dx dy : Poly2) (mp : ℤ → ℤ → ℝ) (resol : ℝ) (par : Pt)
    (hnn : ∀ i j, 0 ≤ mp i j) : 0 ≤ vertexScore dx dy mp resol par :=
  mul_nonneg (Real.sqrt_nonneg _) (hnn _ _)

lemma branchScore_nonneg (dx dy : Poly2) (mp : ℤ → ℤ → ℝ) (resol : ℝ)
    (curva : List Pt) (hnn : ∀ i j, 0 ≤ mp i j) :
    0 ≤ branchScore dx dy mp resol curva := by
  unfold branchScore meanR
  apply div_nonneg _ (Nat.cast_nonneg _)
  apply List.sum_nonneg
  intro x hx
  obtain ⟨par, _, rfl⟩ := List.mem_map.mp hx
  exact vertexScore_nonneg dx dy mp resol par hnn

/-- C3 (amended): for every non-empty list of contour branches (branches
nonempty, weight matrix nonnegative — matplotlib contours always carry
vertices and `computeWeights` values are positive),
`mejor_curva_pendiente3` returns the index of a branch whose mean over
vertices of (gradient magnitude times centrality weight) is highest; but
when several branches attain the same highest mean, the LAST-seen branch
(highest index) is returned — the `p_med >= p_max` comparison replaces the
candidate on ties, so every branch after the returned index scores
strictly lower. -/
theorem mejor_curva_selects_last_argmax (v : List (List Pt)) (dx dy : Poly2)
    (mp : ℤ → ℤ → ℝ) (resol : ℝ) (hne : v ≠ [])
    (hnn : ∀ i j, 0 ≤ mp i j) (_hb : ∀ c ∈ v, c ≠ []) :
    ∃ r : ℕ, mejor_curva_pendiente3 v dx dy mp resol = (r : ℤ) ∧ r < v.length ∧
      (∀ k, k < v.length → branchScore dx dy mp resol (v.getD k []) ≤
        branchScore dx dy mp resol (v.getD r [])) ∧
      (∀ k, k < v.length → r < k → branchScore dx dy mp resol (v.getD k []) <
        branchScore dx dy mp resol (v.getD r [])) := by
  have h0 : 0 < v.length := List.length_pos.mpr hne
  rcases mejorGo_spec (v.map (branchScore dx dy mp resol)) 0 (-1) 0 le_rfl with
    ⟨_, hall⟩ | ⟨j, hj, heq, _, hmax, hstrict⟩
  · exfalso
    have hlt := hall 0 (by simpa using h0)
    rw [getD_map_of_lt _ _ _ h0 [] 0] at hlt
    exact absurd hlt (not_lt.mpr (branchScore_nonneg dx dy mp resol _ hnn))
  · have hjv : j < v.length := by simpa using hj
    refine ⟨j, by simpa using heq, hjv, ?_, ?_⟩
    · intro k hk
      have := hmax k (by simpa using hk)
      rwa [getD_map_of_lt _ _ _ hk [] 0, getD_map_of_lt _ _ _ hjv [] 0] at this
    · intro k hk hjk
      have := hstrict k (by simpa using hk) hjk
      rwa [getD_map_of_lt _ _ _ hk [] 0, getD_map_of_lt _ _ _ hjv [] 0] at this

/-- Witness for the amended C3 theorem at a concrete two-branch input with
everything zero except the weight matrix. -/
theorem mejor_curva_selects_last_argmax_witness :
    ([[((0 : ℝ), (0 : ℝ))], [((1 : ℝ), (0 : ℝ))]] : List (List Pt)) ≠ [] ∧
    (∀ i j : ℤ, (0 : ℝ) ≤ (fun _ _ => (1 : ℝ)) i j) ∧
    (∃ r : ℕ, mejor_curva_pendiente3 [[((0 : ℝ), (0 : ℝ))], [((1 : ℝ), (0 : ℝ))]]
        ⟨0, 0, fun _ _ => 0⟩ ⟨0, 0, fun _ _ => 0⟩ (fun _ _ => 1) 1 = (r : ℤ) ∧
      r < ([[((0 : ℝ), (0 : ℝ))], [((1 : ℝ), (0 : ℝ))]] : List (List Pt)).length) := by
  refine ⟨by simp, fun i j => zero_le_one, ?_⟩
  obtain ⟨r, hr, hlen, -, -⟩ :=
    mejor_curva_selects_last_argmax [[((0 : ℝ), (0 : ℝ))], [((1 : ℝ), (0 : ℝ))]]
      ⟨0, 0, fun _ _ => 0⟩ ⟨0, 0, fun _ _ => 0⟩ (fun _ _ => 1) 1 (by simp)
      (fun i j => zero_le_one) (by simp)
  exact ⟨r, hr, hlen⟩

/-- C3 counterexample: two identical one-vertex branches tie on the mean
score (both score 0 with zero derivative matrices); the claim's first-seen
tie-break predicts index 0, but the scan returns index 1 — the last-seen
branch — because `p_med >= p_max` replaces the candidate on equality. -/
theorem mejor_curva_tie_returns_last :
    mejor_curva_pendiente3 [[((0 : ℝ), (0 : ℝ))], [((0 : ℝ), (0 : ℝ))]]
      ⟨0, 0, fun _ _ => 0⟩ ⟨0, 0, fun _ _ => 0⟩ (fun _ _ => 1) 1 = 1 := by
  norm_num [mejor_curva_pendiente3, branchScore, meanR, vertexScore, Poly2.eval,
    mejorGo, Finset.sum_range_zero, Real.sqrt_zero]

/-- C10: whenever the list of contour branches is non-empty (branches
nonempty, weight matrix nonnegative), the scan's first iteration already
fires (`p_med >= 0 = p_max`), so the returned index lies in
`[0, len v)` and is never `-1`; the initial `-1` survives only for an
empty branch list, hence the caller's skip branch (`indice == -1`) is
unreachable when a contour exists. -/
theorem mejor_curva_index_in_range (v : List (List Pt)) (dx dy : Poly2)
    (mp : ℤ → ℤ → ℝ) (resol : ℝ) (hne : v ≠ [])
    (hnn : ∀ i j, 0 ≤ mp i j) (_hb : ∀ c ∈ v, c ≠ []) :
    (0 ≤ mejor_curva_pendiente3 v dx dy mp resol ∧
     (mejor_curva_pendiente3 v dx dy mp resol).toNat < v.length ∧
     mejor_curva_pendiente3 v dx dy mp resol ≠ -1) ∧
    (∀ (dx' dy' : Poly2) (mp' : ℤ → ℤ → ℝ) (resol' : ℝ),
      mejor_curva_pendiente3 [] dx' dy' mp' resol' = -1) := by
  have h0 : 0 < v.length := List.length_pos.mpr hne
  refine ⟨?_, fun dx' dy' mp' resol' => rfl⟩
  rcases mejorGo_spec (v.map (branchScore dx dy mp resol)) 0 (-1) 0 le_rfl with
    ⟨_, hall⟩ | ⟨j, hj, heq, -, -, -⟩
  · exfalso
    have hlt := hall 0 (by simpa using h0)
    rw [getD_map_of_lt _ _ _ h0 [] 0] at hlt
    exact absurd hlt (not_lt.mpr (branchScore_nonneg dx dy mp resol _ hnn))
  · have heq' : mejor_curva_pendiente3 v dx dy mp resol = (j : ℤ) := by simpa using heq
    refine ⟨by rw [heq']; exact Int.natCast_nonneg j, ?_, by rw [heq']; omega⟩
    rw [heq']
    simpa using (by simpa using hj : j < v.length)

/-- Witness for the C10 theorem at a one-branch input. -/
theorem mejor_curva_index_in_range_witness :
    ([[((2 : ℝ), (3 : ℝ))]] : List (List Pt)) ≠ [] ∧
    0 ≤ mejor_curva_pendiente3 [[((2 : ℝ), (3 : ℝ))]]
      ⟨1, 1, fun _ _ => 1⟩ ⟨1, 1, fun _ _ => 1⟩ (fun _ _ => 1) 1 ∧
    (mejor_curva_pendiente3 [[((2 : ℝ), (3 : ℝ))]]
      ⟨1, 1, fun _ _ => 1⟩ ⟨1, 1, fun _ _ => 1⟩ (fun _ _ => 1) 1).toNat <
      ([[((2 : ℝ), (3 : ℝ))]] : List (List Pt)).length := by
  have h := mejor_curva_index_in_range [[((2 : ℝ), (3 : ℝ))]]
    ⟨1, 1, fun _ _ => 1⟩ ⟨1, 1, fun _ _ => 1⟩ (fun _ _ => 1) 1 (by simp)
    (fun i j => zero_le_one) (by simp)
  exact ⟨by simp, h.1.1, h.1.2.1⟩

lemma removeByAngle_three (a b c : Pt) (tol : ℝ) :
    removeByAngle [a, b, c] tol =
      [a] ++ ((if tol ≤ turnAngle a b c then [b] else []) ++ [c]) := by
  simp [removeByAngle, removeByAngleCore]

lemma getD_range_map (g : ℕ → Pt) (n i : ℕ) (hi : i < n) :
    ((List.range n).map g).getD i (0, 0) = g i := by
  rw [List.getD_eq_getElem _ _ (by simpa using hi), List.getElem_map, List.getElem_range]

lemma collinear_step_angle (a d : Pt) (s : ℕ → ℝ) (hd : d ≠ (0, 0))
    (hs : StrictMono s) (k : ℕ) :
    turnAngle (a.1 + s k * d.1, a.2 + s k * d.2)
      (a.1 + s (k + 1) * d.1, a.2 + s (k + 1) * d.2)
      (a.1 + s (k + 2) * d.1, a.2 + s (k + 2) * d.2) = 180 := by
  have h1 : s k < s (k + 1) := hs (by omega)
  have h2 : s (k + 1) < s (k + 2) := hs (by omega)
  have hne1 : s (k + 1) - s k ≠ 0 := by linarith
  apply turnAngle_collinear _ _ _ ((s (k + 2) - s (k + 1)) / (s (k + 1) - s k))
  · apply div_pos (by linarith) (by linarith)
  · intro hcon
    apply hd
    have hfst := congrArg Prod.fst hcon
    have hsnd := congrArg Prod.snd hcon
    simp only at hfst hsnd
    have hd1 : d.1 = 0 := by
      have h0 : (s (k + 1) - s k) * d.1 = 0 := by linear_combination hfst
      rcases mul_eq_zero.mp h0 with h | h
      · exact absurd h hne1
      · exact h
    have hd2 : d.2 = 0 := by
      have h0 : (s (k + 1) - s k) * d.2 = 0 := by linear_combination hsnd
      rcases mul_eq_zero.mp h0 with h | h
      · exact absurd h hne1
      · exact h
    exact Prod.ext_iff.mpr ⟨hd1, hd2⟩
  · simp only
    field_simp
    ring
  · simp only
    field_simp
    ring

/-- C4: for every path of at least 3 points and every tolerance, the angle
filter equals its specification — the first point, then exactly those
interior points `p[i+1]` whose normalized turning angle (the `atan2`
difference in degrees brought into `[0, 360)`) is `≥ tol`, then the last
point; the first and last path points begin and end the output regardless
of angle. -/
theorem removeByAngle_eq_spec (a b c : Pt) (rest : List Pt) (tol : ℝ) :
    removeByAngle (a :: b :: c :: rest) tol =
      removeByAngleSpec (a :: b :: c :: rest) tol ∧
    (removeByAngle (a :: b :: c :: rest) tol).head? = some a ∧
    (removeByAngle (a :: b :: c :: rest) tol).getLast? =
      (a :: b :: c :: rest).getLast? := by
  refine ⟨?_, ?_, ?_⟩
  · rw [removeByAngle, removeByAngleSpec, removeByAngleCore_eq_filterMap]
  · simp [removeByAngle]
  · rw [removeByAngle, ← List.append_assoc,
      List.getLast?_eq_getLast (a :: b :: c :: rest) (by simp)]
    simp only [Option.toList_some]
    rw [List.getLast?_concat]

/-- C5 counterexample: the interior point of the 3-point path
`(0,0), (1,0), (1,1)` forms an exact 90° corner, but with this turn
direction the normalized `atan2` difference is 270°, and `270 ≥ 150`, so
under the default tolerance the point is RETAINED — refuting the claim
that a point forming an exact 90° turn is discarded for either turn
direction. -/
theorem removeByAngle_90_corner_kept :
    removeByAngle [((0 : ℝ), (0 : ℝ)), (1, 0), (1, 1)] 150 =
      [((0 : ℝ), (0 : ℝ)), (1, 0), (1, 1)] := by
  have h := turnAngle_rot_ccw (0, 0) (1, 0) (1, 1) 1 one_pos
    (by simp [Prod.ext_iff]) (by norm_num) (by norm_num)
  rw [removeByAngle_three, h, if_pos (by norm_num)]
  simp

/-- C5 (amended): under the default tolerance 150°, every interior point of
a strictly monotone path of 3 or more collinear points has turning angle
exactly 180° and the whole path is retained unchanged; an interior point
forming an exact 90° turn is discarded when the turn direction gives the
normalized angle 90°, but the opposite turn direction gives 270° and the
point is retained. -/
theorem removeByAngle_collinear_and_90 :
    (∀ (a d : Pt) (s : ℕ → ℝ) (n : ℕ), d ≠ (0, 0) → StrictMono s → 3 ≤ n →
      (∀ k, k + 2 < n →
        turnAngle (a.1 + s k * d.1, a.2 + s k * d.2)
          (a.1 + s (k + 1) * d.1, a.2 + s (k + 1) * d.2)
          (a.1 + s (k + 2) * d.1, a.2 + s (k + 2) * d.2) = 180) ∧
      removeByAngle ((List.range n).map fun k =>
          (a.1 + s k * d.1, a.2 + s k * d.2)) 150 =
        (List.range n).map fun k => (a.1 + s k * d.1, a.2 + s k * d.2)) ∧
    (∀ (a b c : Pt) (t : ℝ), 0 < t → b ≠ a →
      c.1 - b.1 = t * (b.2 - a.2) → c.2 - b.2 = -(t * (b.1 - a.1)) →
      turnAngle a b c = 90 ∧ removeByAngle [a, b, c] 150 = [a, c]) ∧
    (∀ (a b c : Pt) (t : ℝ), 0 < t → b ≠ a →
      c.1 - b.1 = -(t * (b.2 - a.2)) → c.2 - b.2 = t * (b.1 - a.1) →
      turnAngle a b c = 270 ∧ removeByAngle [a, b, c] 150 = [a, b, c]) := by
  refine ⟨?_, ?_, ?_⟩
  · intro a d s n hd hs hn
    refine ⟨fun k _ => collinear_step_angle a d s hd hs k, ?_⟩
    apply removeByAngle_of_allAngles
    · simpa using by omega
    · intro i hi
      have hlen : ((List.range n).map fun k =>
          (a.1 + s k * d.1, a.2 + s k * d.2)).length = n := by simp
      rw [hlen] at hi
      rw [getD_range_map _ n i (by omega), getD_range_map _ n (i + 1) (by omega),
        getD_range_map _ n (i + 2) (by omega)]
      rw [collinear_step_angle a d s hd hs i]
      norm_num
  · intro a b c t ht hne hc1 hc2
    have h := turnAngle_rot_cw a b c t ht hne hc1 hc2
    refine ⟨h, ?_⟩
    rw [removeByAngle_three, h, if_neg (by norm_num)]
    simp
  · intro a b c t ht hne hc1 hc2
    have h := turnAngle_rot_ccw a b c t ht hne hc1 hc2
    refine ⟨h, ?_⟩
    rw [removeByAngle_three, h, if_pos (by norm_num)]
    simp

/-- Witness for the amended C5 theorem: the monotone collinear path
`(0,0), (1,0), (2,0)`, the clockwise-measured 90° corner
`(0,0), (1,0), (1,-1)` (discarded) and the opposite corner
`(0,0), (1,0), (1,1)` (retained). -/
theorem removeByAngle_collinear_and_90_witness :
    (((1 : ℝ), (0 : ℝ)) ≠ ((0 : ℝ), (0 : ℝ)) ∧
      StrictMono (fun k : ℕ => (k : ℝ)) ∧ (3 : ℕ) ≤ 3 ∧
      removeByAngle ((List.range 3).map fun k =>
          ((0 : ℝ) + (k : ℝ) * 1, (0 : ℝ) + (k : ℝ) * 0)) 150 =
        ((List.range 3).map fun k =>
          ((0 : ℝ) + (k : ℝ) * 1, (0 : ℝ) + (k : ℝ) * 0))) ∧
    ((0 : ℝ) < 1 ∧ turnAngle (0, 0) (1, 0) (1, -1) = 90 ∧
      removeByAngle [((0 : ℝ), (0 : ℝ)), (1, 0), (1, -1)] 150 =
        [((0 : ℝ), (0 : ℝ)), (1, -1)]) ∧
    (turnAngle (0, 0) (1, 0) (1, 1) = 270 ∧
      removeByAngle [((0 : ℝ), (0 : ℝ)), (1, 0), (1, 1)] 150 =
        [((0 : ℝ), (0 : ℝ)), (1, 0), (1, 1)]) := by
  have hd : ((1 : ℝ), (0 : ℝ)) ≠ ((0 : ℝ), (0 : ℝ)) := by simp [Prod.ext_iff]
  have hs : StrictMono (fun k : ℕ => (k : ℝ)) := Nat.strictMono_cast
  refine ⟨⟨hd, hs, le_refl 3, ?_⟩, ⟨one_pos, ?_⟩, ?_⟩
  · exact (removeByAngle_collinear_and_90.1 (0, 0) (1, 0) (fun k : ℕ => (k : ℝ)) 3
      hd hs (le_refl 3)).2
  · exact removeByAngle_collinear_and_90.2.1 (0, 0) (1, 0) (1, -1) 1 one_pos
      (by simp [Prod.ext_iff]) (by norm_num) (by norm_num)
  · exact removeByAngle_collinear_and_90.2.2 (0, 0) (1, 0) (1, 1) 1 one_pos
      (by simp [Prod.ext_iff]) (by norm_num) (by norm_num)

/-- C9: every written vertex is the world-coordinate conversion of the
kernel-local vertex: `world_x = band_origin_x + (col - kernel/2)*pixel_size
+ local_x`, `world_y = band_origin_y_max - (fil - kernel/2)*pixel_size -
local_y` (with `int(kernel/2.0)` the floor of half the kernel size),
together with the weight-matrix value at the truncated scaled kernel
coordinates `int(local_x/resol), int(local_y/resol)`. -/
theorem escribeCoords_world_coords (xs ys : List ℝ) (xmin ymax ro r : ℝ)
    (wm : ℤ → ℤ → ℝ) (fil col : ℤ) (kernel : ℕ) (i : ℕ)
    (hix : i < xs.length) (hiy : i < ys.length) :
    (escribeCoords xs ys xmin ymax ro r wm fil col kernel).getD i (0, 0, 0) =
      (xmin + ((col : ℝ) - ((kernel / 2 : ℕ) : ℝ)) * ro + xs.getD i 0,
       ymax - ((fil : ℝ) - ((kernel / 2 : ℕ) : ℝ)) * ro - ys.getD i 0,
       wm (pyInt (xs.getD i 0 / r)) (pyInt (ys.getD i 0 / r))) := by
  have hz : i < (xs.zip ys).length := by
    rw [List.length_zip]
    omega
  rw [List.getD_eq_getElem xs 0 hix, List.getD_eq_getElem ys 0 hiy, escribeCoords,
    List.getD_eq_getElem _ _ (by simpa using hz), List.getElem_map, List.getElem_zip]

/-- Witness for the C9 theorem at the single vertex `(5, 7)`. -/
theorem escribeCoords_world_coords_witness :
    (0 : ℕ) < ([(5 : ℝ)] : List ℝ).length ∧ (0 : ℕ) < ([(7 : ℝ)] : List ℝ).length ∧
    (escribeCoords [(5 : ℝ)] [(7 : ℝ)] 0 0 1 1 (fun _ _ => 0) 0 0 3).getD 0 (0, 0, 0) =
      (0 + (((0 : ℤ) : ℝ) - ((3 / 2 : ℕ) : ℝ)) * 1 + ([(5 : ℝ)] : List ℝ).getD 0 0,
       0 - (((0 : ℤ) : ℝ) - ((3 / 2 : ℕ) : ℝ)) * 1 - ([(7 : ℝ)] : List ℝ).getD 0 0,
       (fun _ _ => (0 : ℝ)) (pyInt (([(5 : ℝ)] : List ℝ).getD 0 0 / 1))
         (pyInt (([(7 : ℝ)] : List ℝ).getD 0 0 / 1))) :=
  ⟨by simp, by simp,
   escribeCoords_world_coords [(5 : ℝ)] [(7 : ℝ)] 0 0 1 1 (fun _ _ => 0) 0 0 3 0
     (by simp) (by simp)⟩

lemma extractStep_fst (pl : ℕ → ℕ → ℕ)
    (pipeline : ℕ → ℕ → Option (List (List Pt) × Poly2 × Poly2))
    (wm : ℤ → ℤ → ℝ) (minX maxY ro r : ℝ) (kernel : ℕ)
    (st : Bool × List (ℝ × ℝ × ℝ)) (fc : ℕ × ℕ) :
    (extractStep pl pipeline wm minX maxY ro r kernel st fc).1 =
      (st.1 || decide (pl fc.1 fc.2 = 255)) := by
  rw [extractStep]
  by_cases h : pl fc.1 fc.2 = 255
  · rw [if_pos h]
    rcases hp : pipeline fc.1 fc.2 with - | ⟨v, dxy⟩
    · simp [hp, h]
    · simp only [hp]
      by_cases hv : v ≠ []
      · rw [if_pos hv]
        by_cases hi : mejor_curva_pendiente3 v dxy.1 dxy.2 wm r ≠ -1
        · rw [if_pos hi]
          simp [h]
        · rw [if_neg hi]
          simp [h]
      · rw [if_neg hv]
        simp [h]
  · rw [if_neg h]
    simp [h]

lemma foldl_extract_fst (pl : ℕ → ℕ → ℕ)
    (pipeline : ℕ → ℕ → Option (List (List Pt) × Poly2 × Poly2))
    (wm : ℤ → ℤ → ℝ) (minX maxY ro r : ℝ) (kernel : ℕ)
    (l : List (ℕ × ℕ)) : ∀ (init : Bool × List (ℝ × ℝ × ℝ)),
    (l.foldl (extractStep pl pipeline wm minX maxY ro r kernel) init).1 =
      (init.1 || l.any fun fc => decide (pl fc.1 fc.2 = 255)) := by
  induction l with
  | nil => intro init; simp
  | cons fc rest ih =>
    intro init
    rw [List.foldl_cons, ih, extractStep_fst]
    simp [Bool.or_assoc]

/-- C1 (amended): `extractPoints` returns `true` exactly when at least one
pixel of value 255 exists inside the 10-pixel interior margin — the
`white_pixel` flag is set as soon as such a pixel is SEEN, independently of
whether any output point was produced for it (or for the whole scene), so
`false` signals "no rough-line pixel", not "no extracted points". -/
theorem extractPoints_flag_iff (rows columns : ℕ) (pl : ℕ → ℕ → ℕ)
    (pipeline : ℕ → ℕ → Option (List (List Pt) × Poly2 × Poly2))
    (minX maxY ro : ℝ) (kernel ppp : ℕ) :
    (extractPoints rows columns pl pipeline minX maxY ro kernel ppp).1 = true ↔
      ∃ f c, 10 ≤ f ∧ f < rows - 10 ∧ 10 ≤ c ∧ c < columns - 10 ∧ pl f c = 255 := by
  rw [extractPoints, foldl_extract_fst]
  simp only [Bool.false_or, List.any_eq_true, decide_eq_true_eq, scanPixels,
    List.mem_flatMap, List.mem_map, List.mem_range'_1]
  constructor
  · rintro ⟨fc, ⟨f, ⟨hf1, hf2⟩, c, ⟨hc1, hc2⟩, rfl⟩, hval⟩
    exact ⟨f, c, hf1, by omega, hc1, by omega, hval⟩
  · rintro ⟨f, c, hf1, hf2, hc1, hc2, hval⟩
    exact ⟨(f, c), ⟨f, ⟨hf1, by omega⟩, c, ⟨hc1, by omega⟩, rfl⟩, hval⟩

/-- C1 counterexample: a 21×21 scene whose only rough-line pixel (value
255, at the margin corner (10,10)) yields no contour (`pipeline` returns
`None` for it): `extractPoints` returns `true` with an EMPTY output — the
claim requires `false` whenever zero points are extracted. -/
theorem extractPoints_true_with_empty_output :
    extractPoints 21 21 (fun f c => if f = 10 ∧ c = 10 then 255 else 0)
      (fun _ _ => none) 0 0 1 3 1 = (true, []) := by
  have hscan : scanPixels 21 21 = [(10, 10)] := by
    norm_num [scanPixels, List.range']
  rw [extractPoints, hscan]
  simp only [List.foldl_cons, List.foldl_nil, extractStep]
  norm_num

lemma erfP_key (s u : ℝ) (e1 : s * (1 + u) = 1) :
    erfP s * (1+u)^11 =
      2.25677255 + 27.65952502*u + 154.96827261*u^2 + 523.3094292*u^3
      + 1184.21196205*u^4 + 1878.7101514*u^5 + 2133.52830302*u^6 + 1724.74837336*u^7
      + 970.00002368*u^8 + 361*u^9 + 80*u^10 + 8*u^11 := by
  have hpow : ∀ k : ℕ, s^k * (1+u)^k = 1 := fun k => by rw [← mul_pow, e1, one_pow]
  have h2 := hpow 2
  have h3 := hpow 3
  have h4 := hpow 4
  have h5 := hpow 5
  have h6 := hpow 6
  have h7 := hpow 7
  have h8 := hpow 8
  have h9 := hpow 9
  have h10 := hpow 10
  have h11 := hpow 11
  simp only [erfP, erfHd]
  linear_combination (-8 * (1+u)^10) * e1 + ((1+u)^9) * h2
    + (1.00002368 * (1+u)^8) * h3 + (0.74818392 * (1+u)^7) * h4
    + (0.29035254 * (1+u)^6) * h5 + (-0.74515224 * (1+u)^5) * h6
    + (1.39434035 * (1+u)^4) * h7 + (-6.81122388 * (1+u)^3) * h8
    + (10.41961109 * (1+u)^2) * h9 + (-6.57721784 * (1+u)) * h10
    + 1.53785493 * h11

/-- The numerator of the derivative of `erfG` is positive on `(0, 1]`:
after the substitution `s = 1/(1+u)`, `u ≥ 0`, every coefficient of the
resulting degree-11 polynomial in `u` is nonnegative and its constant term
is `erfP 1 = 2.25677255 > 0`. -/
lemma erfP_pos (s : ℝ) (hs : 0 < s) (hs1 : s ≤ 1) : 0 < erfP s := by
  set u := (1 - s)/s with hu
  have hu0 : 0 ≤ u := div_nonneg (by linarith) hs.le
  have e1 : s * (1 + u) = 1 := by
    rw [hu]
    field_simp
  have hkey := erfP_key s u e1
  have h2 := pow_nonneg hu0 2
  have h3 := pow_nonneg hu0 3
  have h4 := pow_nonneg hu0 4
  have h5 := pow_nonneg hu0 5
  have h6 := pow_nonneg hu0 6
  have h7 := pow_nonneg hu0 7
  have h8 := pow_nonneg hu0 8
  have h9 := pow_nonneg hu0 9
  have h10 := pow_nonneg hu0 10
  have h11 := pow_nonneg hu0 11
  have hQ : (0:ℝ) < erfP s * (1+u)^11 := by
    rw [hkey]
    nlinarith [hu0]
  have hA : (0:ℝ) < (1+u)^11 := pow_pos (by linarith) 11
  by_contra hc
  push_neg at hc
  have hle : erfP s * (1+u)^11 ≤ 0 := mul_nonpos_of_nonpos_of_nonneg hc hA.le
  linarith

lemma hasDerivAt_erfH (s : ℝ) : HasDerivAt erfH (erfHd s) s := by
  have hfun : erfH = fun x : ℝ => -1.26551223 + 1.00002368 * x ^ 1 + 0.37409196 * x ^ 2 +
      0.09678418 * x ^ 3 + (-0.18628806) * x ^ 4 + 0.27886807 * x ^ 5 +
      (-1.13520398) * x ^ 6 + 1.48851587 * x ^ 7 + (-0.82215223) * x ^ 8 +
      0.17087277 * x ^ 9 := by
    funext x
    simp only [erfH]
    ring
  rw [hfun]
  have h1 := ((hasDerivAt_pow 1 s).const_mul (1.00002368 : ℝ)).const_add (-1.26551223)
  have h2 := h1.add ((hasDerivAt_pow 2 s).const_mul (0.37409196 : ℝ))
  have h3 := h2.add ((hasDerivAt_pow 3 s).const_mul (0.09678418 : ℝ))
  have h4 := h3.add ((hasDerivAt_pow 4 s).const_mul ((-0.18628806) : ℝ))
  have h5 := h4.add ((hasDerivAt_pow 5 s).const_mul (0.27886807 : ℝ))
  have h6 := h5.add ((hasDerivAt_pow 6 s).const_mul ((-1.13520398) : ℝ))
  have h7 := h6.add ((hasDerivAt_pow 7 s).const_mul (1.48851587 : ℝ))
  have h8 := h7.add ((hasDerivAt_pow 8 s).const_mul ((-0.82215223) : ℝ))
  have h9 := h8.add ((hasDerivAt_pow 9 s).const_mul (0.17087277 : ℝ))
  convert h9 using 1
  simp only [erfHd]
  push_cast
  ring

lemma hasDerivAt_erfG (s : ℝ) (hs : 0 < s) : HasDerivAt erfG (erfP s / s ^ 3) s := by
  have hsne : s ≠ 0 := ne_of_gt hs
  have hlog : HasDerivAt Real.log s⁻¹ s := Real.hasDerivAt_log hsne
  have hfrac : HasDerivAt (fun x : ℝ => 2 / x - 2) (2 * (-(s ^ 2)⁻¹)) s := by
    have h := ((hasDerivAt_inv hsne).const_mul (2 : ℝ)).sub_const 2
    simpa [div_eq_mul_inv] using h
  have hsq : HasDerivAt (fun x : ℝ => (2 / x - 2) ^ 2)
      ((2 : ℕ) * (2 / s - 2) ^ 1 * (2 * (-(s ^ 2)⁻¹))) s := hfrac.pow 2
  have hH := hasDerivAt_erfH s
  have hG := (hlog.sub hsq).add hH
  have hGfun : erfG = fun x : ℝ => (Real.log x - (2 / x - 2) ^ 2) + erfH x := rfl
  rw [hGfun]
  convert hG using 1
  simp only [erfP]
  field_simp
  ring

lemma strictMonoOn_erfG : StrictMonoOn erfG (Set.Ioc 0 1) := by
  apply strictMonoOn_of_deriv_pos (convex_Ioc 0 1)
  · intro x hx
    exact (hasDerivAt_erfG x hx.1).continuousAt.continuousWithinAt
  · intro x hx
    rw [interior_Ioc] at hx
    rw [(hasDerivAt_erfG x hx.1).deriv]
    exact div_pos (erfP_pos x hx.1 hx.2.le) (pow_pos hx.1 3)

lemma mul_exp_eq (t A : ℝ) (ht : 0 < t) : t * Real.exp A = Real.exp (Real.log t + A) := by
  rw [Real.exp_add, Real.exp_log ht]

lemma erfcc_eq_exp (z : ℝ) (hz : 0 ≤ z) : erfcc z = Real.exp (erfG (2 / (2 + z))) := by
  have h2z : (0 : ℝ) < 2 + z := by linarith
  have ht0 : (0 : ℝ) < 1 + 0.5 * z := by linarith
  have hteq : 2 / (2 + z) = 1 / (1 + 0.5 * z) := by
    rw [div_eq_div_iff (ne_of_gt h2z) (ne_of_gt ht0)]
    ring
  rw [hteq, erfG]
  have harg : 2 / (1 / (1 + 0.5 * z)) - 2 = z := by
    field_simp
    ring
  rw [harg]
  simp only [erfcc]
  rw [if_pos hz, abs_of_nonneg hz, mul_exp_eq _ _ (by positivity)]
  congr 1
  simp only [erfH]
  ring

lemma erfcc_strictAnti (z1 z2 : ℝ) (h1 : 0 ≤ z1) (h12 : z1 < z2) :
    erfcc z2 < erfcc z1 := by
  rw [erfcc_eq_exp z1 h1, erfcc_eq_exp z2 (by linarith)]
  apply Real.exp_lt_exp.mpr
  have hm1 : 2 / (2 + z1) ∈ Set.Ioc (0 : ℝ) 1 := by
    constructor
    · exact div_pos (by norm_num) (by linarith)
    · rw [div_le_one (by linarith)]
      linarith
  have hm2 : 2 / (2 + z2) ∈ Set.Ioc (0 : ℝ) 1 := by
    constructor
    · exact div_pos (by norm_num) (by linarith)
    · rw [div_le_one (by linarith)]
      linarith
  apply strictMonoOn_erfG hm2 hm1
  apply div_lt_div_of_pos_left (by norm_num) (by linarith) (by linarith)

lemma erfcc_anti (z1 z2 : ℝ) (h1 : 0 ≤ z1) (h12 : z1 ≤ z2) : erfcc z2 ≤ erfcc z1 := by
  rcases eq_or_lt_of_le h12 with rfl | hlt
  · exact le_rfl
  · exact (erfcc_strictAnti z1 z2 h1 hlt).le

lemma erfcc_zero_eq : erfcc 0 = Real.exp 0.00000003 := by
  rw [erfcc_eq_exp 0 le_rfl]
  norm_num [erfG, erfH, Real.log_one]

lemma erfcc_pos_of_nonneg (z : ℝ) (hz : 0 ≤ z) : 0 < erfcc z := by
  rw [erfcc_eq_exp z hz]
  exact Real.exp_pos _

lemma erfcc_le_top (z : ℝ) (hz : 0 ≤ z) : erfcc z ≤ Real.exp 0.00000003 := by
  rw [← erfcc_zero_eq]
  exact erfcc_anti 0 z le_rfl hz

lemma erfcc_lt_two (z : ℝ) (hz : 0 ≤ z) : erfcc z < 2 := by
  have h1 : (1 : ℝ) - 0.00000003 ≤ Real.exp (-0.00000003) := by
    have := Real.add_one_le_exp (-0.00000003 : ℝ)
    linarith
  have h2 : Real.exp (0.00000003 : ℝ) * Real.exp (-0.00000003 : ℝ) = 1 := by
    rw [← Real.exp_add]
    norm_num
  have h3 : Real.exp (0.00000003 : ℝ) < 2 := by
    nlinarith [Real.exp_pos (0.00000003 : ℝ)]
  exact lt_of_le_of_lt (erfcc_le_top z hz) h3

lemma computeWeights_eq_erfcc (kernel ppp i j : ℕ) :
    computeWeights kernel ppp i j =
      erfcc (cellDist (kernel * ppp) i j / (3 * Real.sqrt 2)) := by
  have hd0 : (0 : ℝ) ≤ cellDist (kernel * ppp) i j := Real.sqrt_nonneg _
  have hs2 : (0 : ℝ) < 3 * Real.sqrt 2 := by positivity
  have harg0 : (0 : ℝ) ≤ cellDist (kernel * ppp) i j / (3 * Real.sqrt 2) :=
    div_nonneg hd0 hs2.le
  simp only [computeWeights, normcdf, cellDist]
  have harg : -(-(Real.sqrt ((((i : ℝ) + 1) - (((kernel * ppp : ℕ) : ℝ) + 1) / 2) ^ 2 +
      (((j : ℝ) + 1) - (((kernel * ppp : ℕ) : ℝ) + 1) / 2) ^ 2)) - 0) / (3 * Real.sqrt 2) =
      Real.sqrt ((((i : ℝ) + 1) - (((kernel * ppp : ℕ) : ℝ) + 1) / 2) ^ 2 +
      (((j : ℝ) + 1) - (((kernel * ppp : ℕ) : ℝ) + 1) / 2) ^ 2) / (3 * Real.sqrt 2) := by
    ring
  rw [harg]
  rw [if_neg]
  · ring
  · push_neg
    have hlt := erfcc_lt_two (cellDist (kernel * ppp) i j / (3 * Real.sqrt 2)) harg0
    simp only [cellDist] at hlt
    linarith

lemma centerOffset_le (n k : ℕ) :
    |((n / 2 : ℕ) : ℝ) + 1 - ((n : ℝ) + 1) / 2| ≤ |(k : ℝ) + 1 - ((n : ℝ) + 1) / 2| := by
  rcases Nat.even_or_odd n with he | ho
  · obtain ⟨m, rfl⟩ := he
    have hdiv : (m + m) / 2 = m := by omega
    rw [hdiv]
    have hL : ((m : ℝ)) + 1 - (((m + m : ℕ) : ℝ) + 1) / 2 = 1 / 2 := by
      push_cast
      ring
    rw [hL]
    set t : ℤ := 2 * (k : ℤ) + 1 - 2 * (m : ℤ) with hT
    have htne : t ≠ 0 := by omega
    have ht1 : (1 : ℤ) ≤ |t| := Int.one_le_abs htne
    have htr : (k : ℝ) + 1 - (((m + m : ℕ) : ℝ) + 1) / 2 = ((t : ℤ) : ℝ) / 2 := by
      rw [hT]
      push_cast
      ring
    rw [htr, abs_div ((t : ℤ) : ℝ) (2 : ℝ)]
    have e2 : |(2 : ℝ)| = 2 := by norm_num
    rw [e2]
    have e1 : |(1 : ℝ) / 2| = 1 / 2 := by norm_num
    rw [e1]
    have hcast : (1 : ℝ) ≤ |((t : ℤ) : ℝ)| := by
      rw [← Int.cast_abs]
      exact_mod_cast ht1
    linarith
  · obtain ⟨m, rfl⟩ := ho
    have hdiv : (2 * m + 1) / 2 = m := by omega
    rw [hdiv]
    have hL : ((m : ℝ)) + 1 - (((2 * m + 1 : ℕ) : ℝ) + 1) / 2 = 0 := by
      push_cast
      ring
    rw [hL, abs_zero]
    exact abs_nonneg _

lemma cellDist_center_le (n i j : ℕ) :
    cellDist n (n / 2) (n / 2) ≤ cellDist n i j := by
  apply Real.sqrt_le_sqrt
  have h1 := centerOffset_le n i
  have h2 := centerOffset_le n j
  have sq1 : (((n / 2 : ℕ) : ℝ) + 1 - ((n : ℝ) + 1) / 2) ^ 2 ≤
      ((i : ℝ) + 1 - ((n : ℝ) + 1) / 2) ^ 2 := by
    rw [← sq_abs, ← sq_abs ((i : ℝ) + 1 - ((n : ℝ) + 1) / 2)]
    exact pow_le_pow_left (abs_nonneg _) h1 2
  have sq2 : (((n / 2 : ℕ) : ℝ) + 1 - ((n : ℝ) + 1) / 2) ^ 2 ≤
      ((j : ℝ) + 1 - ((n : ℝ) + 1) / 2) ^ 2 := by
    rw [← sq_abs, ← sq_abs ((j : ℝ) + 1 - ((n : ℝ) + 1) / 2)]
    exact pow_le_pow_left (abs_nonneg _) h2 2
  linarith

lemma cellDist_rot (n i j : ℕ) (hi : i < n) (hj : j < n) :
    cellDist n (n - 1 - i) (n - 1 - j) = cellDist n i j := by
  unfold cellDist
  have e1 : ((n - 1 - i : ℕ) : ℝ) = (n : ℝ) - 1 - (i : ℝ) := by
    have h : n - 1 - i = n - (1 + i) := by omega
    rw [h, Nat.cast_sub (by omega)]
    push_cast
    ring
  have e2 : ((n - 1 - j : ℕ) : ℝ) = (n : ℝ) - 1 - (j : ℝ) := by
    have h : n - 1 - j = n - (1 + j) := by omega
    rw [h, Nat.cast_sub (by omega)]
    push_cast
    ring
  rw [e1, e2]
  congr 1
  have r1 : (n : ℝ) - 1 - (i : ℝ) + 1 - ((n : ℝ) + 1) / 2 =
      -((i : ℝ) + 1 - ((n : ℝ) + 1) / 2) := by ring
  have r2 : (n : ℝ) - 1 - (j : ℝ) + 1 - ((n : ℝ) + 1) / 2 =
      -((j : ℝ) + 1 - ((n : ℝ) + 1) / 2) := by ring
  rw [r1, r2]
  ring

/-- C8 (amended): for every odd `kernel` and `ppp ≥ 1`, over the square
weight matrix of side `kernel * ppp` produced by `computeWeights`
(`p = np.zeros((kernel*ppp, kernel*ppp))`): the matrix is symmetric under
180° rotation about its center; the center cell (index
`(kernel*ppp)/2` on both axes) attains the maximum value; every cell value
is strictly positive and bounded by `exp 0.00000003` — the center value,
which slightly EXCEEDS 1, because the `erfcc` approximation constants sum
to exactly `3e-8` instead of `0`, so "values in [0,1]" fails at the
center; and cell values decrease (strictly) as the cell's Euclidean
distance from the matrix center increases. -/
theorem computeWeights_matrix_props (kernel ppp : ℕ) (hk : Odd kernel)
    (hp : 1 ≤ ppp) :
    (∀ i j, i < kernel * ppp → j < kernel * ppp →
      computeWeights kernel ppp i j =
        computeWeights kernel ppp (kernel * ppp - 1 - i) (kernel * ppp - 1 - j)) ∧
    (∀ i j, i < kernel * ppp → j < kernel * ppp →
      computeWeights kernel ppp i j ≤
        computeWeights kernel ppp (kernel * ppp / 2) (kernel * ppp / 2)) ∧
    (∀ i j, i < kernel * ppp → j < kernel * ppp →
      0 < computeWeights kernel ppp i j ∧
      computeWeights kernel ppp i j ≤ Real.exp 0.00000003) ∧
    (∀ i j i' j', cellDist (kernel * ppp) i j ≤ cellDist (kernel * ppp) i' j' →
      computeWeights kernel ppp i' j' ≤ computeWeights kernel ppp i j) ∧
    (∀ i j i' j', cellDist (kernel * ppp) i j < cellDist (kernel * ppp) i' j' →
      computeWeights kernel ppp i' j' < computeWeights kernel ppp i j) := by
  have hs2 : (0 : ℝ) < 3 * Real.sqrt 2 := by positivity
  have hmono : ∀ i j i' j', cellDist (kernel * ppp) i j ≤ cellDist (kernel * ppp) i' j' →
      computeWeights kernel ppp i' j' ≤ computeWeights kernel ppp i j := by
    intro i j i' j' hle
    rw [computeWeights_eq_erfcc, computeWeights_eq_erfcc]
    apply erfcc_anti
    · exact div_nonneg (Real.sqrt_nonneg _) hs2.le
    · exact (div_le_div_right hs2).mpr hle
  have hstrict : ∀ i j i' j', cellDist (kernel * ppp) i j < cellDist (kernel * ppp) i' j' →
      computeWeights kernel ppp i' j' < computeWeights kernel ppp i j := by
    intro i j i' j' hlt
    rw [computeWeights_eq_erfcc, computeWeights_eq_erfcc]
    apply erfcc_strictAnti
    · exact div_nonneg (Real.sqrt_nonneg _) hs2.le
    · exact (div_lt_div_right hs2).mpr hlt
  refine ⟨?_, ?_, ?_, hmono, hstrict⟩
  · intro i j hi hj
    rw [computeWeights_eq_erfcc, computeWeights_eq_erfcc,
      cellDist_rot (kernel * ppp) i j hi hj]
  · intro i j _ _
    exact hmono (kernel * ppp / 2) (kernel * ppp / 2) i j
      (cellDist_center_le (kernel * ppp) i j)
  · intro i j _ _
    constructor
    · rw [computeWeights_eq_erfcc]
      exact erfcc_pos_of_nonneg _ (div_nonneg (Real.sqrt_nonneg _) hs2.le)
    · rw [computeWeights_eq_erfcc]
      exact erfcc_le_top _ (div_nonneg (Real.sqrt_nonneg _) hs2.le)

/-- C8 counterexample: for `kernel = ppp = 1` the single (center) cell of
the weight matrix has distance 0 from the center and value
`erfcc 0 = exp 0.00000003 > 1` — the ten decimal constants of the `erfcc`
approximation sum to exactly `3·10⁻⁸` rather than `0` — so the claim
"every cell value lies in [0,1]" is false at the center cell. -/
theorem computeWeights_center_exceeds_one :
    computeWeights 1 1 0 0 = Real.exp 0.00000003 ∧ 1 < computeWeights 1 1 0 0 := by
  have h1 : computeWeights 1 1 0 0 = erfcc (cellDist (1 * 1) 0 0 / (3 * Real.sqrt 2)) :=
    computeWeights_eq_erfcc 1 1 0 0
  have h2 : cellDist (1 * 1) 0 0 = 0 := by
    have hin : (((0 : ℕ) : ℝ) + 1 - (((1 * 1 : ℕ) : ℝ) + 1) / 2) ^ 2 +
        (((0 : ℕ) : ℝ) + 1 - (((1 * 1 : ℕ) : ℝ) + 1) / 2) ^ 2 = 0 := by norm_num
    rw [cellDist, hin, Real.sqrt_zero]
  have h3 : computeWeights 1 1 0 0 = Real.exp 0.00000003 := by
    rw [h1, h2, zero_div, erfcc_zero_eq]
  refine ⟨h3, ?_⟩
  rw [h3]
  rw [Real.one_lt_exp_iff]
  norm_num

/-- Witness for the amended C8 theorem at `kernel = ppp = 1`. -/
theorem computeWeights_matrix_props_witness :
    Odd 1 ∧ (1 : ℕ) ≤ 1 ∧
    (∀ i j, i < 1 * 1 → j < 1 * 1 →
      0 < computeWeights 1 1 i j ∧ computeWeights 1 1 i j ≤ Real.exp 0.00000003) :=
  ⟨odd_one, le_rfl, (computeWeights_matrix_props 1 1 odd_one le_rfl).2.2.1⟩
